import Mathlib

/-!
Verification of the Renamer core of `exif_rename.py`.

Strings are modelled as `List Char` (`Str`); Python string slicing,
`startswith`/`endswith`, `str.lower`, `pathlib.Path.suffix` and f-string
decimal formatting of integers are embedded explicitly.  Filesystem paths
are modelled as the strings produced by `Path.joinpath`.  Timestamps
(`datetime.datetime` values) are abstracted as `Nat`; `strftime` with the
configured date format is an abstract function `Nat → Str`.  The per-file
I/O strategies of the timestamp resolver (EXIF reading, filename parsing,
`stat`) are abstracted as a per-file record of their outcomes, reflecting
that `get_exif_timestamp`/`get_filename_timestamp` either return a value or
raise `TimestampReadException`, while `get_stat_timestamp` always returns a
value for an existing file.
-/

/-- Python strings, modelled as lists of characters. -/
abbrev Str := List Char

/-- Shorthand turning a Lean string literal into the `Str` model. -/
def str (s : String) : Str := s.data

/-- Model of `pathlib`'s `directory.joinpath(name)`. -/
def joinPath (directory name : Str) : Str := directory ++ '/' :: name

/-- Python `s.startswith(p)`. -/
def strStartsWith : Str → Str → Bool
  | _, [] => true
  | [], _ :: _ => false
  | c :: s, p :: ps => c == p && strStartsWith s ps

/-- Python `s.endswith(p)`. -/
def strEndsWith (s p : Str) : Bool := strStartsWith s.reverse p.reverse

/-- Python slice `s[a:-b]` (for non-negative `a`, `b`): when `b = 0` the
slice is `s[a:0]`, which is empty; otherwise it is the segment from index
`a` (inclusive) to index `len s - b` (exclusive), empty when the bounds
cross. -/
def pySliceToNegEnd (s : Str) (a b : Nat) : Str :=
  if b = 0 then [] else (s.drop a).take (s.length - b - a)

/-- Python `str.lower()`, restricted to ASCII case mapping. -/
def pyLower (s : Str) : Str := s.map Char.toLower

/-- Model of `re.match(r'-\d+', m) is not None`: `re.match` anchors the
pattern at the start of the string only, so a match exists exactly when
the string begins with a hyphen followed by at least one decimal digit;
any characters after that first digit are irrelevant. -/
def matchHyphenDigits : Str → Bool
  | c0 :: c1 :: _ => c0 == '-' && c1.isDigit
  | _ => false

/-- `matches_timestamp(filename, timestamp, extension)` from
`exif_rename.py`. -/
def matches_timestamp (filename timestamp extension : Str) : Bool :=
  if timestamp ++ extension = filename then true
  else if !strStartsWith filename timestamp || !strEndsWith filename extension then false
  else matchHyphenDigits (pySliceToNegEnd filename timestamp.length extension.length)

/-! Decimal formatting of a natural number, as produced by Python's
f-string `f'{index}'`.  Defined with a fuel argument so that it reduces
definitionally; `decimalRepr` supplies sufficient fuel. -/

/-- The character for a single decimal digit `m < 10`. -/
def decDigit (m : Nat) : Char := Char.ofNat (48 + m)

/-- Fuel-indexed core of the decimal formatter. -/
def decimalReprCore : Nat → Nat → Str
  | 0, _ => []
  | fuel + 1, n =>
    if n < 10 then [decDigit n]
    else decimalReprCore fuel (n / 10) ++ [decDigit (n % 10)]

/-- Decimal representation of a natural number (Python `str(n)`). -/
def decimalRepr (n : Nat) : Str := decimalReprCore (n + 1) n

/-- Left inverse of `decimalRepr`: read a digit string back as a number. -/
def parseDec (s : Str) : Nat := s.foldl (fun acc c => 10 * acc + (c.toNat - 48)) 0

/-- Modelled from the spec's words (for comparison with the code's
`matches_timestamp`): the name equals `base+ext`, or it matches the
anchored pattern `^{base}-\d+{ext}$` exactly — a single hyphen followed by
one or more decimal digits and nothing else between `base` and `ext`. -/
def specMatchExact (name base ext : Str) : Bool :=
  (base ++ ext == name) ||
    (strStartsWith name base && strEndsWith name ext &&
      (match pySliceToNegEnd name base.length ext.length with
       | '-' :: rest => !rest.isEmpty && rest.all Char.isDigit
       | _ => false))

/-! The timestamp source resolver (`get_timestamp` and its strategies). -/

/-- `pathlib.Path.suffix` of a final path component: the segment from the
last `'.'` onward, provided that dot is neither the first nor the last
character; otherwise the empty string. -/
def pySuffix (name : Str) : Str :=
  match name.reverse.findIdx? (· == '.') with
  | none => []
  | some j =>
    if 0 < name.length - 1 - j ∧ name.length - 1 - j < name.length - 1 then
      name.drop (name.length - 1 - j)
    else []

/-- The `DateSource` enum of `exif_rename.py`. -/
inductive DateSource where
  | exif
  | file_name
  | file_created
  | file_modified
deriving DecidableEq, Repr

/-- A value appearing in the `date_sources` list handed to `get_timestamp`:
either one of the four known `DateSource` members, or an unrecognized tag
(the code compares with `==` against each member in turn, so anything else
falls through to the `raise ValueError` branch). -/
inductive SourceTag where
  | known : DateSource → SourceTag
  | unknown : Str → SourceTag
deriving DecidableEq, Repr

/-- The two kinds of exception relevant to `get_timestamp`:
`TimestampReadException` (caught per source and re-raised on exhaustion)
and `ValueError` (raised for an unknown source tag, never caught by the
resolver or by `Renamer.run`). -/
inductive PyExc where
  | timestampRead : Str → PyExc
  | valueError : Str → PyExc
deriving DecidableEq, Repr

/-- Per-file outcomes of the four I/O strategies.
`get_exif_timestamp` and `get_filename_timestamp` either return a
timestamp or raise `TimestampReadException` with a message; for a file
that exists, `get_stat_timestamp` always returns the requested `stat`
field. -/
structure ResolveEnv where
  exifResult : Except Str Nat
  filenameResult : Except Str Nat
  ctime : Nat
  mtime : Nat

/-- Dispatch on a known date source, as in the `if/elif` chain of
`get_timestamp`. -/
def runSource (env : ResolveEnv) : DateSource → Except Str Nat
  | .exif => env.exifResult
  | .file_name => env.filenameResult
  | .file_created => .ok env.ctime
  | .file_modified => .ok env.mtime

/-- Python `'\n'.join(parts)`. -/
def joinLines : List Str → Str
  | [] => []
  | [x] => x
  | x :: xs => x ++ '\n' :: joinLines xs

/-- The loop of `get_timestamp`, carrying the accumulated list of
per-source failure messages (`exceptions` in the code). -/
def get_timestampAux (env : ResolveEnv) : List SourceTag → List Str →
    Except PyExc (SourceTag × Nat)
  | [], excs => .error (.timestampRead (joinLines excs))
  | tag :: rest, excs =>
    match tag with
    | .known ds =>
      match runSource env ds with
      | .ok t => .ok (tag, t)
      | .error e => get_timestampAux env rest (excs ++ [e])
    | .unknown s => .error (.valueError (str "Unknown date source: " ++ s))

/-- `get_timestamp(file, date_sources, source_name_format)`: the per-file
strategies and the format argument are abstracted into `env`. -/
def get_timestamp (env : ResolveEnv) (date_sources : List SourceTag) :
    Except PyExc (SourceTag × Nat) :=
  get_timestampAux env date_sources []

/-! The unique-filename search (`Renamer.find_unique_filename`). -/

/-- The `k`-th candidate file name tried by `find_unique_filename`:
`base.ext` first, then `base-1.ext`, `base-2.ext`, and so on. -/
def candName (basename extension : Str) : Nat → Str
  | 0 => basename ++ extension
  | Nat.succ k => basename ++ '-' :: (decimalRepr (k + 1) ++ extension)

/-- The `k`-th candidate as a full path in `directory`. -/
def candPath (directory basename extension : Str) (k : Nat) : Str :=
  joinPath directory (candName basename extension k)

/-- The `while path_exists(candidate)` loop of `find_unique_filename`,
with explicit fuel standing for the unbounded Python loop (`none` models
divergence when every candidate within fuel exists). -/
def find_unique_loop (pe : Str → Bool) (directory basename extension : Str) :
    Nat → Nat → Str → Option Str
  | 0, _, _ => none
  | fuel + 1, index, candidate =>
    if pe candidate then
      find_unique_loop pe directory basename extension fuel (index + 1)
        (joinPath directory (basename ++ '-' :: (decimalRepr index ++ extension)))
    else some candidate

/-- `Renamer.find_unique_filename(directory, basename, extension)`. -/
def find_unique_filename (pe : Str → Bool) (directory basename extension : Str)
    (fuel : Nat) : Option Str :=
  find_unique_loop pe directory basename extension fuel 1
    (joinPath directory (basename ++ extension))

/-! The two renaming strategies and the batch runner (`Renamer.run`). -/

/-- State of a `SimulatedRenamer`: the real filesystem (never mutated by
the simulation) plus the two counting maps `files_added_counter` and
`files_removed_counter` (`defaultdict(int)`, so zero-valued by default;
the code only ever increments them, hence `Nat`). -/
structure SimState where
  realFS : Str → Bool
  added : Str → Nat
  removed : Str → Nat

/-- `SimulatedRenamer.path_exists`: Python evaluates
`path.exists() + added[path] - removed[path] > 0` over the integers, with
`True` coerced to `1`. -/
def simPathExists (s : SimState) (p : Str) : Bool :=
  decide ((if s.realFS p then (1 : Int) else 0)
    + (s.added p : Int) - (s.removed p : Int) > 0)

/-- `SimulatedRenamer.rename_file`: increment the destination's
added-count and the source's removed-count; nothing else changes. -/
def simRenameFile (s : SimState) (src dest : Str) : SimState :=
  { s with
    added := fun p => if p = dest then s.added p + 1 else s.added p,
    removed := fun p => if p = src then s.removed p + 1 else s.removed p }

/-- Effect of a live rename (`src_file.rename(dest_file)` or the
configured move command) on which paths exist. -/
def liveRename (fs : Str → Bool) (src dest : Str) : Str → Bool :=
  fun p => if p = dest then true else if p = src then false else fs p

/-- A renaming strategy: how the runner sees the real filesystem
(`is_file` checks), how the overridable `path_exists` answers, and what
`rename_file` does to the state. -/
structure Strategy (σ : Type) where
  realFS : σ → Str → Bool
  pathExists : σ → Str → Bool
  renameFile : σ → Str → Str → σ

/-- The `FilesystemChangingRenamer` strategy: state is the set of
existing paths, `path_exists` consults it directly, renames update it. -/
def liveStrategy : Strategy (Str → Bool) where
  realFS := fun s => s
  pathExists := fun s p => s p
  renameFile := liveRename

/-- The `SimulatedRenamer` strategy: `path_exists` consults the counters
on top of the (fixed) real filesystem, renames only bump the counters. -/
def simStrategy : Strategy SimState where
  realFS := fun s => s.realFS
  pathExists := simPathExists
  renameFile := simRenameFile

/-- An input path, as `Renamer.run` sees it: parent directory, final
component, and whether the path is a directory (directories are not
touched by renames, so this is a static attribute in the model). -/
structure FileInfo where
  dir : Str
  name : Str
  isDir : Bool
deriving DecidableEq, Repr

/-- The full path of an input file. -/
def filePath (f : FileInfo) : Str := joinPath f.dir f.name

/-- Per-file decision logged by `Renamer.run`. -/
inductive Outcome where
  | skippedDir
  | notFound
  | noTimestamp : Str → Outcome
  | alreadyMatches
  | renamed : SourceTag → Str → Outcome
deriving DecidableEq, Repr

/-- How a batch run ended: normally, with an uncaught `ValueError`
(unknown date source), or with the model's fuel for the unique-name
search exhausted (the Python loop would not have terminated within that
many iterations). -/
inductive BatchResult (σ : Type) where
  | finished : List Outcome → σ → BatchResult σ
  | aborted : PyExc → List Outcome → σ → BatchResult σ
  | outOfFuel : List Outcome → σ → BatchResult σ

/-- Prepend the decision for the current file to a batch result. -/
def BatchResult.consOut {σ : Type} (o : Outcome) : BatchResult σ → BatchResult σ
  | .finished outs s => .finished (o :: outs) s
  | .aborted e outs s => .aborted e (o :: outs) s
  | .outOfFuel outs s => .outOfFuel (o :: outs) s

/-- The per-file decisions of a batch result, in input order. -/
def BatchResult.outs {σ : Type} : BatchResult σ → List Outcome
  | .finished outs _ => outs
  | .aborted _ outs _ => outs
  | .outOfFuel outs _ => outs

/-- The final strategy state of a batch result. -/
def BatchResult.state {σ : Type} : BatchResult σ → σ
  | .finished _ s => s
  | .aborted _ _ s => s
  | .outOfFuel _ s => s

/-- How a batch result ended, with the strategy state erased (used to
compare runs of different strategies). -/
inductive EndKind where
  | finished
  | aborted : PyExc → EndKind
  | outOfFuel
deriving DecidableEq, Repr

/-- The `EndKind` of a batch result. -/
def BatchResult.endKind {σ : Type} : BatchResult σ → EndKind
  | .finished _ _ => .finished
  | .aborted e _ _ => .aborted e
  | .outOfFuel _ _ => .outOfFuel

/-- The configuration visible to `Renamer.run`: the parsed date-source
list, `strftime` with the configured date format (abstract), and the
per-file strategy outcomes for the resolver. -/
structure Config where
  date_sources : List SourceTag
  strftime : Nat → Str
  envOf : FileInfo → ResolveEnv

/-- `Renamer.run`: process each input file in order; skip directories and
missing files; resolve a timestamp (a `TimestampReadException` is caught
and logged per file, a `ValueError` propagates and aborts the batch);
skip files whose name already matches; otherwise find a unique
destination and rename via the strategy. -/
def runFiles {σ : Type} (S : Strategy σ) (cfg : Config) (fuel : Nat) :
    List FileInfo → σ → BatchResult σ
  | [], s => .finished [] s
  | f :: rest, s =>
    if f.isDir = true then (runFiles S cfg fuel rest s).consOut .skippedDir
    else if S.realFS s (filePath f) = false then
      (runFiles S cfg fuel rest s).consOut .notFound
    else
      match get_timestamp (cfg.envOf f) cfg.date_sources with
      | .error (.timestampRead m) =>
        (runFiles S cfg fuel rest s).consOut (.noTimestamp m)
      | .error (.valueError m) => .aborted (.valueError m) [] s
      | .ok (tag, t) =>
        if matches_timestamp f.name (cfg.strftime t) (pyLower (pySuffix f.name)) = true then
          (runFiles S cfg fuel rest s).consOut .alreadyMatches
        else
          match find_unique_filename (S.pathExists s) f.dir (cfg.strftime t)
              (pyLower (pySuffix f.name)) fuel with
          | none => .outOfFuel [] s
          | some dest =>
            (runFiles S cfg fuel rest (S.renameFile s (filePath f) dest)).consOut
              (.renamed tag dest)

/-- A sequence of colliding `find_unique_filename` requests against the
simulated existence check: each request is followed by the simulated
rename of the corresponding source file to the returned destination, as
in one simulated batch. -/
def simRequests (directory basename extension : Str) (fuel : Nat) :
    List Str → SimState → List (Option Str)
  | [], _ => []
  | src :: rest, s =>
    match find_unique_filename (simPathExists s) directory basename extension fuel with
    | none => none :: simRequests directory basename extension fuel rest s
    | some dest =>
      some dest ::
        simRequests directory basename extension fuel rest (simRenameFile s src dest)

theorem decimalReprCore_fuel {f g n : Nat} (hf : n < f) (hg : n < g) :
    decimalReprCore f n = decimalReprCore g n := by
  induction f generalizing n g with
  | zero => omega
  | succ f ih =>
    obtain ⟨g, rfl⟩ : ∃ g', g = g' + 1 := ⟨g - 1, by omega⟩
    by_cases h10 : n < 10
    · simp [decimalReprCore, h10]
    · have hdiv : n / 10 < n := Nat.div_lt_self (by omega) (by omega)
      simp only [decimalReprCore, h10, if_false]
      rw [ih (g := g) (by omega) (by omega)]

theorem decimalRepr_ge_ten {n : Nat} (h : ¬ n < 10) :
    decimalRepr n = decimalRepr (n / 10) ++ [decDigit (n % 10)] := by
  have hdiv : n / 10 < n := Nat.div_lt_self (by omega) (by omega)
  show decimalReprCore (n + 1) n = _
  simp only [decimalReprCore, h, if_false]
  rw [decimalReprCore_fuel (f := n) (g := n / 10 + 1) (by omega) (by omega)]
  rfl

theorem decDigit_toNat {m : Nat} (h : m < 10) : (decDigit m).toNat = 48 + m := by
  interval_cases m <;> decide

theorem parseDec_append_digit (s : Str) (c : Char) :
    parseDec (s ++ [c]) = 10 * parseDec s + (c.toNat - 48) := by
  simp [parseDec, List.foldl_append]

theorem parseDec_decimalRepr (n : Nat) : parseDec (decimalRepr n) = n := by
  induction n using Nat.strong_induction_on with
  | _ n ih =>
    by_cases h10 : n < 10
    · have : decimalRepr n = [decDigit n] := by simp [decimalRepr, decimalReprCore, h10]
      rw [this]
      show 10 * 0 + ((decDigit n).toNat - 48) = n
      rw [decDigit_toNat h10]
      omega
    · rw [decimalRepr_ge_ten h10, parseDec_append_digit,
        ih (n / 10) (Nat.div_lt_self (by omega) (by omega)),
        decDigit_toNat (Nat.mod_lt _ (by omega))]
      omega

theorem decimalRepr_injective {m n : Nat} (h : decimalRepr m = decimalRepr n) :
    m = n := by
  have := parseDec_decimalRepr m
  rw [h, parseDec_decimalRepr] at this
  omega

theorem decDigit_isDigit {m : Nat} (h : m < 10) : (decDigit m).isDigit = true := by
  interval_cases m <;> decide

theorem decimalRepr_head (n : Nat) :
    ∃ c r, decimalRepr n = c :: r ∧ c.isDigit = true := by
  induction n using Nat.strong_induction_on with
  | _ n ih =>
    by_cases h10 : n < 10
    · exact ⟨decDigit n, [], by simp [decimalRepr, decimalReprCore, h10],
        decDigit_isDigit h10⟩
    · obtain ⟨c, r, hc, hd⟩ := ih (n / 10) (Nat.div_lt_self (by omega) (by omega))
      exact ⟨c, r ++ [decDigit (n % 10)], by rw [decimalRepr_ge_ten h10, hc]; rfl, hd⟩

theorem decimalRepr_ne_nil (n : Nat) : decimalRepr n ≠ [] := by
  obtain ⟨c, r, hc, -⟩ := decimalRepr_head n
  simp [hc]

example : decimalRepr 0 = str "0" := by decide
example : decimalRepr 137 = str "137" := by decide
example : matches_timestamp (str "20191027_121401-3.jpg") (str "20191027_121401") (str ".jpg") = true := by decide
example : matches_timestamp (str "20191027_121401-1x.jpg") (str "20191027_121401") (str ".jpg") = true := by decide
example : matches_timestamp (str "20191027_121401--1.jpg") (str "20191027_121401") (str ".jpg") = false := by decide
example : matches_timestamp (str "a-1") (str "a") (str "") = false := by decide

/-! Characterizations of the string primitives. -/

theorem strStartsWith_iff {s p : Str} :
    strStartsWith s p = true ↔ ∃ r, s = p ++ r := by
  induction p generalizing s with
  | nil => simp [strStartsWith]
  | cons c ps ih =>
    cases s with
    | nil => simp [strStartsWith]
    | cons a s =>
      simp only [strStartsWith, Bool.and_eq_true, beq_iff_eq, ih, List.cons_append,
        List.cons.injEq]
      constructor
      · rintro ⟨rfl, r, rfl⟩; exact ⟨r, rfl, rfl⟩
      · rintro ⟨r, rfl, rfl⟩; exact ⟨rfl, r, rfl⟩

theorem strEndsWith_iff {s p : Str} :
    strEndsWith s p = true ↔ ∃ r, s = r ++ p := by
  unfold strEndsWith
  rw [strStartsWith_iff]
  constructor
  · rintro ⟨r, hr⟩
    refine ⟨r.reverse, ?_⟩
    have := congrArg List.reverse hr
    simpa using this
  · rintro ⟨r, rfl⟩
    exact ⟨r.reverse, by simp⟩

theorem matchHyphenDigits_iff {m : Str} :
    matchHyphenDigits m = true ↔ ∃ c r, m = '-' :: c :: r ∧ c.isDigit = true := by
  match m with
  | [] => simp [matchHyphenDigits]
  | [c0] => simp [matchHyphenDigits]
  | c0 :: c1 :: rest =>
    simp only [matchHyphenDigits, Bool.and_eq_true, beq_iff_eq]
    constructor
    · rintro ⟨rfl, hd⟩; exact ⟨c1, rest, rfl, hd⟩
    · rintro ⟨c, r, heq, hd⟩
      cases heq
      exact ⟨rfl, hd⟩

/-- Characterization of `matches_timestamp` for a non-empty extension: the
name is an exact match, or it decomposes as `base ++ "-" ++ d ++ anything
++ ext` with `d` a decimal digit.  Note the segment after the first digit
is unconstrained, because `re.match` does not anchor the end of the
pattern. -/
theorem matches_timestamp_iff {name base ext : Str} (hext : ext ≠ []) :
    matches_timestamp name base ext = true ↔
      (name = base ++ ext ∨
        ∃ c r, c.isDigit = true ∧ name = base ++ '-' :: c :: (r ++ ext)) := by
  have hb : ext.length ≠ 0 := by
    cases ext with
    | nil => exact absurd rfl hext
    | cons a l => simp
  unfold matches_timestamp
  by_cases heq : base ++ ext = name
  · rw [if_pos heq]
    simp only [true_iff]
    exact Or.inl heq.symm
  · rw [if_neg heq]
    by_cases hstart : strStartsWith name base = true
    · by_cases hend : strEndsWith name ext = true
      · rw [if_neg (by simp [hstart, hend])]
        obtain ⟨s₁, hs₁⟩ := strStartsWith_iff.mp hstart
        obtain ⟨s₂, hs₂⟩ := strEndsWith_iff.mp hend
        constructor
        · intro hmatch
          obtain ⟨c, r, hslice, hdig⟩ := matchHyphenDigits_iff.mp hmatch
          simp only [pySliceToNegEnd] at hslice
          rw [if_neg hb] at hslice
          have hlen : (List.take (name.length - ext.length - base.length)
              (List.drop base.length name)).length =
              min (name.length - ext.length - base.length)
                (name.length - base.length) := by
            simp [List.length_take, List.length_drop]
          rw [hslice] at hlen
          have hnb : name.length = base.length + s₁.length := by
            rw [hs₁]; simp
          have hne : name.length = s₂.length + ext.length := by
            rw [hs₂]; simp
          have hL : 2 ≤ name.length - ext.length - base.length := by
            simp only [List.length_cons] at hlen
            omega
          have hdrop : List.drop base.length name = s₁ := by
            rw [hs₁, List.drop_left]
          set L := name.length - ext.length - base.length with hLdef
          have hsuffix : List.drop L s₁ = ext := by
            have h1 : List.drop s₂.length name = ext := by
              rw [hs₂, List.drop_left]
            have h2 : List.drop s₂.length name = List.drop L s₁ := by
              rw [show s₂.length = base.length + L by omega, hs₁,
                ← List.drop_drop, List.drop_left]
            rw [← h1, h2]
          rw [hdrop] at hslice
          refine Or.inr ⟨c, r, hdig, ?_⟩
          have htile : s₁ = ('-' :: c :: r) ++ ext := by
            conv_lhs => rw [← List.take_append_drop L s₁]
            rw [hslice, hsuffix]
          rw [hs₁, htile]
          simp
        · rintro (h | ⟨c, r, hdig, h⟩)
          · exact absurd h.symm heq
          · have hdrop : List.drop base.length name = '-' :: c :: (r ++ ext) := by
              rw [h, List.drop_left]
            have hL : name.length - ext.length - base.length = r.length + 1 + 1 := by
              rw [h]; simp; omega
            simp only [pySliceToNegEnd]
            rw [if_neg hb, hdrop, hL]
            rw [List.take_succ_cons, List.take_succ_cons, List.take_left]
            simp [matchHyphenDigits, hdig]
      · have hend' : strEndsWith name ext = false := by
          cases hx : strEndsWith name ext
          · rfl
          · exact absurd hx hend
        rw [if_pos (by simp [hend'])]
        simp only [Bool.false_eq_true, false_iff]
        rintro (h | ⟨c, r, hdig, h⟩)
        · exact heq h.symm
        · exact hend (strEndsWith_iff.mpr ⟨base ++ '-' :: c :: r, by simpa using h⟩)
    · have hstart' : strStartsWith name base = false := by
        cases hx : strStartsWith name base
        · rfl
        · exact absurd hx hstart
      rw [if_pos (by simp [hstart'])]
      simp only [Bool.false_eq_true, false_iff]
      rintro (h | ⟨c, r, hdig, h⟩)
      · exact heq h.symm
      · exact hstart (strStartsWith_iff.mpr ⟨'-' :: c :: (r ++ ext), h⟩)


/-- Helper: with an empty extension the slice `filename[len(base):-0]` is
always empty, so only the exact-equality branch of `matches_timestamp` can
succeed. -/
theorem matches_timestamp_empty_ext (name base : Str) :
    matches_timestamp name base [] = true ↔ name = base := by
  unfold matches_timestamp
  by_cases heq : base ++ [] = name
  · rw [if_pos heq]
    simp only [List.append_nil] at heq
    simp [heq]
  · rw [if_neg heq]
    simp only [List.append_nil] at heq
    refine iff_of_false ?_ (fun h => heq (h.symm))
    split
    · simp
    · have hslice : pySliceToNegEnd name base.length (List.length ([] : Str)) = [] := by
        simp [pySliceToNegEnd]
      rw [hslice]
      simp [matchHyphenDigits]

/-- C1 counterexample: the spec's anchored-pattern reading of
`matches_timestamp` is violated by the code.  The middle segment `-1x` has
trailing characters after the digits, so the claim says the matcher must
reject it, but `re.match` does not anchor the end of the pattern and the
code accepts it. -/
theorem c1_counterexample :
    matches_timestamp (str "20191027_121401-1x.jpg") (str "20191027_121401")
        (str ".jpg") = true ∧
      specMatchExact (str "20191027_121401-1x.jpg") (str "20191027_121401")
        (str ".jpg") = false := by
  decide

/-- C1 (amended): for a non-empty extension, `matches_timestamp` accepts a
name iff it is the exact `base+ext`, or it decomposes as `base`, a hyphen,
at least one decimal digit, an arbitrary trailing segment, then `ext`.
Letter suffixes right after the hyphen and double hyphens are still
rejected, but trailing characters after the first digit are accepted,
because `re.match` anchors only the start of the pattern. -/
theorem c1_matches_timestamp_amended (name base ext : Str) (hext : ext ≠ []) :
    matches_timestamp name base ext = true ↔
      (name = base ++ ext ∨
        ∃ c r, c.isDigit = true ∧ name = base ++ '-' :: c :: (r ++ ext)) :=
  matches_timestamp_iff hext

/-- Witness for C1: the amended characterization applied at a concrete
input. -/
theorem c1_witness :
    matches_timestamp (str "a-1.jpg") (str "a") (str ".jpg") = true :=
  (c1_matches_timestamp_amended (str "a-1.jpg") (str "a") (str ".jpg")
      (by decide)).mpr
    (Or.inr ⟨'1', [], by decide, by decide⟩)

/-- C9: with an empty extension argument `matches_timestamp` is true only
on exact equality of name and base; in particular a name made of the base
plus a hyphen-digits disambiguation suffix (and no extension) does not
match, because the slice `filename[len(base):-0]` is always empty. -/
theorem c9_empty_extension_exact_only (name base : Str) :
    (matches_timestamp name base [] = true ↔ name = base) ∧
      ∀ k : Nat, matches_timestamp (base ++ '-' :: decimalRepr k) base [] = false := by
  refine ⟨matches_timestamp_empty_ext name base, fun k => ?_⟩
  cases hx : matches_timestamp (base ++ '-' :: decimalRepr k) base []
  · rfl
  · exfalso
    have hb := (matches_timestamp_empty_ext _ _).mp hx
    have := congrArg List.length hb
    simp at this


/-! Lemmas about the timestamp resolver. -/

/-- Sources that fail with `TimestampReadException` are skipped, their
messages appended to the accumulator, and resolution continues. -/
theorem get_timestampAux_skip_failing (env : ResolveEnv) :
    ∀ (pre : List DateSource) (msgs : List Str) (excs : List Str)
      (rest : List SourceTag),
      List.Forall₂ (fun d m => runSource env d = .error m) pre msgs →
      get_timestampAux env (pre.map .known ++ rest) excs =
        get_timestampAux env rest (excs ++ msgs) := by
  intro pre msgs excs rest hfail
  induction hfail generalizing excs with
  | nil => simp
  | cons hdm htail ih =>
    rename_i d m pre' msgs'
    simp only [List.map_cons, List.cons_append, get_timestampAux, hdm, List.append_eq]
    rw [ih (excs ++ [m])]
    simp

/-- C3: `get_timestamp` returns the first source in the list whose
strategy succeeds, never a later one; the sources after the first success
do not influence the result at all. -/
theorem c3_first_success_wins (env : ResolveEnv) (pre post : List DateSource)
    (d : DateSource) (msgs : List Str) (t : Nat)
    (hfail : List.Forall₂ (fun d' m => runSource env d' = .error m) pre msgs)
    (hok : runSource env d = .ok t) :
    get_timestamp env (pre.map .known ++ .known d :: post.map .known) =
      .ok (.known d, t) := by
  unfold get_timestamp
  rw [get_timestampAux_skip_failing env pre msgs [] _ hfail]
  simp [get_timestampAux, hok]

/-- Witness for C3: with EXIF failing and both the filename source and a
later stat source available, the filename source (listed first) wins. -/
theorem c3_witness :
    get_timestamp ⟨.error (str "no exif"), .ok 42, 7, 8⟩
        [.known .exif, .known .file_name, .known .file_created] =
      .ok (.known .file_name, 42) :=
  c3_first_success_wins ⟨.error (str "no exif"), .ok 42, 7, 8⟩
    [.exif] [.file_created] .file_name [str "no exif"] 42
    (List.Forall₂.cons rfl List.Forall₂.nil) rfl

/-- C8: an unrecognized source tag makes `get_timestamp` raise
`ValueError` — a failure kind distinct from `TimestampReadException` — as
soon as it is reached, aborting the resolution call: the sources after
the unknown tag are never consulted and the failures accumulated so far
are discarded rather than re-raised. -/
theorem c8_unknown_source_aborts (env : ResolveEnv) (pre : List DateSource)
    (msgs : List Str) (s : Str) (post : List SourceTag)
    (hfail : List.Forall₂ (fun d m => runSource env d = .error m) pre msgs) :
    get_timestamp env (pre.map .known ++ .unknown s :: post) =
        .error (.valueError (str "Unknown date source: " ++ s)) ∧
      ∀ m : Str, PyExc.valueError (str "Unknown date source: " ++ s) ≠
        PyExc.timestampRead m := by
  constructor
  · unfold get_timestamp
    rw [get_timestampAux_skip_failing env pre msgs [] _ hfail]
    simp [get_timestampAux]
  · intro m h
    exact PyExc.noConfusion h

/-- Witness for C8: a failing EXIF source followed by the unknown tag
`meow`; the trailing sources are never reached. -/
theorem c8_witness :
    get_timestamp ⟨.error (str "no exif"), .ok 42, 7, 8⟩
        [.known .exif, .unknown (str "meow"), .known .file_created] =
      .error (.valueError (str "Unknown date source: " ++ str "meow")) :=
  (c8_unknown_source_aborts ⟨.error (str "no exif"), .ok 42, 7, 8⟩
    [.exif] [str "no exif"] (str "meow") [.known .file_created]
    (List.Forall₂.cons rfl List.Forall₂.nil)).1

/-- C7: when every listed source fails, `get_timestamp` raises a
`TimestampReadException` whose message joins all per-source failure
reasons with newlines, in attempt order; `Renamer.run` catches exactly
this exception, reports the file as skipped, and continues with the
remaining files from an unchanged state. -/
theorem c7_exhaustion_concatenates :
    (∀ (env : ResolveEnv) (srcs : List DateSource) (msgs : List Str),
      List.Forall₂ (fun d m => runSource env d = .error m) srcs msgs →
      get_timestamp env (srcs.map .known) =
        .error (.timestampRead (joinLines msgs))) ∧
    (∀ (σ : Type) (S : Strategy σ) (cfg : Config) (fuel : Nat)
      (f : FileInfo) (rest : List FileInfo) (s : σ) (m : Str),
      f.isDir = false →
      S.realFS s (filePath f) = true →
      get_timestamp (cfg.envOf f) cfg.date_sources = .error (.timestampRead m) →
      runFiles S cfg fuel (f :: rest) s =
        (runFiles S cfg fuel rest s).consOut (.noTimestamp m)) := by
  constructor
  · intro env srcs msgs hfail
    unfold get_timestamp
    rw [show (srcs.map SourceTag.known) = srcs.map .known ++ ([] : List SourceTag)
      by simp]
    rw [get_timestampAux_skip_failing env srcs msgs [] _ hfail]
    simp [get_timestampAux]
  · intro σ S cfg fuel f rest s m hdir hfs hts
    simp only [runFiles]
    rw [if_neg (by simp [hdir]), if_neg (by simp [hfs]), hts]

/-- Witness for C7: two failing sources produce the newline-joined
message, and a one-file batch reports the file skipped and continues (the
result is the rest-of-batch result with the skip decision prepended). -/
theorem c7_witness :
    get_timestamp ⟨.error (str "e1"), .error (str "e2"), 7, 8⟩
        [.known .exif, .known .file_name] =
      .error (.timestampRead (joinLines [str "e1", str "e2"])) ∧
    runFiles liveStrategy
        ⟨[.known .exif, .known .file_name], fun _ => str "t",
          fun _ => ⟨.error (str "e1"), .error (str "e2"), 7, 8⟩⟩ 1
        [⟨str "d", str "x", false⟩] (fun p => p == str "d/x") =
      (runFiles liveStrategy
        ⟨[.known .exif, .known .file_name], fun _ => str "t",
          fun _ => ⟨.error (str "e1"), .error (str "e2"), 7, 8⟩⟩ 1
        [] (fun p => p == str "d/x")).consOut
        (.noTimestamp (joinLines [str "e1", str "e2"])) :=
  ⟨c7_exhaustion_concatenates.1 _ [.exif, .file_name] [str "e1", str "e2"]
      (List.Forall₂.cons rfl (List.Forall₂.cons rfl List.Forall₂.nil)),
    c7_exhaustion_concatenates.2 _ liveStrategy _ 1 _ [] _ _ rfl (by decide) rfl⟩

/-! Lemmas about `find_unique_filename`. -/

/-- Distinct suffix indices give distinct candidate names. -/
theorem candName_injective {b e : Str} {j k : Nat}
    (h : candName b e j = candName b e k) : j = k := by
  match j, k with
  | 0, 0 => rfl
  | 0, Nat.succ k =>
    exfalso
    have hlen := congrArg List.length h
    have hpos : 0 < (decimalRepr (k + 1)).length :=
      List.length_pos.mpr (decimalRepr_ne_nil (k + 1))
    simp [candName] at hlen
    omega
  | Nat.succ j, 0 =>
    exfalso
    have hlen := congrArg List.length h
    have hpos : 0 < (decimalRepr (j + 1)).length :=
      List.length_pos.mpr (decimalRepr_ne_nil (j + 1))
    simp [candName] at hlen
    omega
  | Nat.succ j, Nat.succ k =>
    have h1 : '-' :: (decimalRepr (j + 1) ++ e) = '-' :: (decimalRepr (k + 1) ++ e) :=
      List.append_cancel_left h
    injection h1 with h1a h2
    have h3 := List.append_cancel_right h2
    have := decimalRepr_injective h3
    omega

/-- Distinct suffix indices give distinct candidate paths. -/
theorem candPath_injective {d b e : Str} {j k : Nat}
    (h : candPath d b e j = candPath d b e k) : j = k := by
  unfold candPath joinPath at h
  have h1 : '/' :: candName b e j = '/' :: candName b e k :=
    List.append_cancel_left h
  injection h1 with h1a h2
  exact candName_injective h2

/-- Inversion for the candidate loop: a returned path is some candidate
`k` past the starting index, it does not exist, and every candidate from
the starting index up to `k` exists. -/
theorem find_unique_loop_some {pe : Str → Bool} {d b e : Str} :
    ∀ (fuel i : Nat) (p : Str),
      find_unique_loop pe d b e fuel (i + 1) (candPath d b e i) = some p →
      ∃ k, i ≤ k ∧ p = candPath d b e k ∧ pe p = false ∧
        ∀ j, i ≤ j → j < k → pe (candPath d b e j) = true := by
  intro fuel
  induction fuel with
  | zero =>
    intro i p h
    exact absurd h (by simp [find_unique_loop])
  | succ fuel ih =>
    intro i p h
    by_cases hpe : pe (candPath d b e i) = true
    · rw [find_unique_loop, if_pos hpe] at h
      have hcand : joinPath d (b ++ '-' :: (decimalRepr (i + 1) ++ e)) =
          candPath d b e (i + 1) := rfl
      rw [hcand] at h
      obtain ⟨k, hik, hp, hpef, hall⟩ := ih (i + 1) p h
      refine ⟨k, by omega, hp, hpef, fun j hij hjk => ?_⟩
      rcases Nat.eq_or_lt_of_le hij with rfl | hlt
      · exact hpe
      · exact hall j hlt hjk
    · rw [find_unique_loop, if_neg hpe] at h
      injection h with h
      refine ⟨i, Nat.le_refl i, h.symm, ?_, fun j hij hji => absurd hij (by omega)⟩
      rw [← h]
      cases hx : pe (candPath d b e i)
      · rfl
      · exact absurd hx hpe

/-- The candidate loop returns the first non-existing candidate, given
enough fuel. -/
theorem find_unique_loop_reaches {pe : Str → Bool} {d b e : Str} :
    ∀ (fuel i k : Nat), i ≤ k → k - i < fuel →
      (∀ j, i ≤ j → j < k → pe (candPath d b e j) = true) →
      pe (candPath d b e k) = false →
      find_unique_loop pe d b e fuel (i + 1) (candPath d b e i) =
        some (candPath d b e k) := by
  intro fuel
  induction fuel with
  | zero => intro i k h1 h2; omega
  | succ fuel ih =>
    intro i k hik hfuel hall hk
    rcases Nat.eq_or_lt_of_le hik with rfl | hlt
    · rw [find_unique_loop, if_neg (by simp [hk])]
    · have hpe : pe (candPath d b e i) = true := hall i (Nat.le_refl i) hlt
      rw [find_unique_loop, if_pos hpe]
      have hcand : joinPath d (b ++ '-' :: (decimalRepr (i + 1) ++ e)) =
          candPath d b e (i + 1) := rfl
      rw [hcand]
      exact ih (i + 1) k hlt (by omega) (fun j h1 h2 => hall j (by omega) h2) hk

/-- Inversion for `find_unique_filename`. -/
theorem find_unique_filename_some {pe : Str → Bool} {d b e : Str}
    {fuel : Nat} {p : Str} (h : find_unique_filename pe d b e fuel = some p) :
    ∃ k, p = candPath d b e k ∧ pe p = false ∧
      ∀ j, j < k → pe (candPath d b e j) = true := by
  have h0 : find_unique_loop pe d b e fuel (0 + 1) (candPath d b e 0) = some p := h
  obtain ⟨k, -, hp, hf, hall⟩ := find_unique_loop_some fuel 0 p h0
  exact ⟨k, hp, hf, fun j hj => hall j (Nat.zero_le j) hj⟩

/-- `find_unique_filename` returns the first non-existing candidate, given
enough fuel. -/
theorem find_unique_filename_reaches {pe : Str → Bool} {d b e : Str}
    {fuel k : Nat} (hk : k < fuel)
    (hall : ∀ j, j < k → pe (candPath d b e j) = true)
    (hkf : pe (candPath d b e k) = false) :
    find_unique_filename pe d b e fuel = some (candPath d b e k) :=
  find_unique_loop_reaches fuel 0 k (Nat.zero_le k) (by omega)
    (fun j h1 h2 => hall j h2) hkf

/-- A batch of colliding simulated requests in a directory whose relevant
candidate names do not really exist: request number `k` (counting from
`m`) returns candidate `k`, because the counters record candidates
`0 .. k-1` as added and nothing as removed. -/
theorem simRequests_fresh {d b e : Str} {fs₀ : Str → Bool} {fuel : Nat} :
    ∀ (rem : List Str) (m : Nat) (s : SimState),
      s.realFS = fs₀ →
      (∀ k, k < m + rem.length → fs₀ (candPath d b e k) = false) →
      (∀ k, k < m → s.added (candPath d b e k) = 1) →
      (∀ k, m ≤ k → s.added (candPath d b e k) = 0) →
      (∀ k, k < m + rem.length → s.removed (candPath d b e k) = 0) →
      (∀ x ∈ rem, ∀ k, k < m + rem.length → x ≠ candPath d b e k) →
      m + rem.length ≤ fuel →
      simRequests d b e fuel rem s =
        (List.range' m rem.length).map (fun k => some (candPath d b e k)) := by
  intro rem
  induction rem with
  | nil =>
    intro m s _ _ _ _ _ _ _
    simp [simRequests, List.range']
  | cons src rest ih =>
    intro m s hreal hfs hadd1 hadd0 hrem hsrc hfuel
    simp only [List.length_cons] at hfs hrem hsrc hfuel
    have hpe_lt : ∀ j, j < m → simPathExists s (candPath d b e j) = true := by
      intro j hj
      simp [simPathExists, hreal, hfs j (by omega), hadd1 j hj, hrem j (by omega)]
    have hpe_m : simPathExists s (candPath d b e m) = false := by
      simp [simPathExists, hreal, hfs m (by omega), hadd0 m (Nat.le_refl m),
        hrem m (by omega)]
    have hfind := @find_unique_filename_reaches (simPathExists s) d b e fuel m
      (by omega) (fun j hj => hpe_lt j hj) hpe_m
    simp only [simRequests, hfind]
    have hstep : simRequests d b e fuel rest
        (simRenameFile s src (candPath d b e m)) =
        (List.range' (m + 1) rest.length).map (fun k => some (candPath d b e k)) := by
      refine ih (m + 1) _ hreal (fun k hk => hfs k (by omega)) ?_ ?_ ?_ ?_ (by omega)
      · intro k hk
        show (if candPath d b e k = candPath d b e m then
          s.added (candPath d b e k) + 1 else s.added (candPath d b e k)) = 1
        by_cases hkm : k = m
        · subst hkm
          rw [if_pos rfl, hadd0 k (Nat.le_refl k)]
        · rw [if_neg (fun hc => hkm (candPath_injective hc)), hadd1 k (by omega)]
      · intro k hk
        show (if candPath d b e k = candPath d b e m then
          s.added (candPath d b e k) + 1 else s.added (candPath d b e k)) = 0
        rw [if_neg (fun hc => by have := candPath_injective hc; omega),
          hadd0 k (by omega)]
      · intro k hk
        show (if candPath d b e k = src then
          s.removed (candPath d b e k) + 1 else s.removed (candPath d b e k)) = 0
        rw [if_neg (fun hc => hsrc src (List.mem_cons_self src rest) k (by omega)
          hc.symm), hrem k (by omega)]
      · intro x hx k hk
        exact hsrc x (List.mem_cons_of_mem src hx) k (by omega)
    rw [hstep]
    rfl

/-- C4: a path returned by `find_unique_filename` is reported
non-existing by the active existence check; it is the first candidate in
the order `base.ext`, `base-1.ext`, `base-2.ext`, …  whose check is
false; and `N` colliding simulated requests against an initially-empty
directory return `base.ext, base-1.ext, …, base-(N-1).ext` in order. -/
theorem c4_find_unique_first_available :
    (∀ (pe : Str → Bool) (d b e : Str) (fuel : Nat) (p : Str),
      find_unique_filename pe d b e fuel = some p →
      pe p = false ∧ ∃ k, p = candPath d b e k ∧
        ∀ j, j < k → pe (candPath d b e j) = true) ∧
    (∀ (pe : Str → Bool) (d b e : Str) (fuel k : Nat),
      k < fuel → (∀ j, j < k → pe (candPath d b e j) = true) →
      pe (candPath d b e k) = false →
      find_unique_filename pe d b e fuel = some (candPath d b e k)) ∧
    (∀ (d b e : Str) (fs₀ : Str → Bool) (srcs : List Str) (fuel : Nat),
      (∀ k, k < srcs.length → fs₀ (candPath d b e k) = false) →
      (∀ x ∈ srcs, ∀ k, k < srcs.length → x ≠ candPath d b e k) →
      srcs.length ≤ fuel →
      simRequests d b e fuel srcs ⟨fs₀, fun _ => 0, fun _ => 0⟩ =
        (List.range srcs.length).map (fun k => some (candPath d b e k))) := by
  refine ⟨?_, ?_, ?_⟩
  · intro pe d b e fuel p h
    obtain ⟨k, hp, hf, hall⟩ := find_unique_filename_some h
    exact ⟨hf, k, hp, hall⟩
  · intro pe d b e fuel k hk hall hkf
    exact find_unique_filename_reaches hk hall hkf
  · intro d b e fs₀ srcs fuel hfs hsrc hfuel
    rw [List.range_eq_range']
    exact simRequests_fresh srcs 0 ⟨fs₀, fun _ => 0, fun _ => 0⟩ rfl
      (by simpa using hfs) (fun k hk => absurd hk (by omega)) (fun k _ => rfl)
      (fun k _ => rfl) (by simpa using hsrc) (by simpa using hfuel)

/-- Witness for C4: with `t.j` already taken, the search returns `t-1.j`,
and two colliding simulated requests in an empty directory return `t.j`
then `t-1.j`. -/
theorem c4_witness :
    find_unique_filename (fun p => p == str "d/t.j") (str "d") (str "t")
        (str ".j") 2 = some (candPath (str "d") (str "t") (str ".j") 1) ∧
    simRequests (str "d") (str "t") (str ".j") 2 [str "s1", str "s2"]
        ⟨fun _ => false, fun _ => 0, fun _ => 0⟩ =
      (List.range 2).map
        (fun k => some (candPath (str "d") (str "t") (str ".j") k)) :=
  ⟨c4_find_unique_first_available.2.1 _ (str "d") (str "t") (str ".j") 2 1
      (by omega)
      (fun j hj => by
        obtain rfl : j = 0 := by omega
        decide)
      (by decide),
    c4_find_unique_first_available.2.2 (str "d") (str "t") (str ".j")
      (fun _ => false) [str "s1", str "s2"] 2
      (fun k hk => rfl)
      (fun x hx k hk => by
        have hk2 : k < 2 := by simpa using hk
        simp only [List.mem_cons, List.not_mem_nil, or_false] at hx
        interval_cases k <;> rcases hx with rfl | rfl <;> decide)
      (by decide)⟩

/-- C10: the candidates proposed by the search loop are pairwise
distinct, so under an existence check that reports only finitely many
paths as existing (all of them members of `support`), fuel
`support.length + 1` — one more iteration than the number of possible
collisions — suffices for `find_unique_filename` to return a result. -/
theorem c10_loop_terminates :
    (∀ (d b e : Str) (j k : Nat), j ≠ k → candPath d b e j ≠ candPath d b e k) ∧
    (∀ (pe : Str → Bool) (d b e : Str) (support : List Str),
      (∀ p, pe p = true → p ∈ support) →
      ∃ p, find_unique_filename pe d b e (support.length + 1) = some p) := by
  refine ⟨fun d b e j k hjk hc => hjk (candPath_injective hc), ?_⟩
  intro pe d b e support hsupport
  have hex : ∃ k, pe (candPath d b e k) = false := by
    by_contra hno
    push_neg at hno
    have hall : ∀ k, pe (candPath d b e k) = true := by
      intro k
      cases hx : pe (candPath d b e k)
      · exact absurd hx (hno k)
      · rfl
    have hinj : Function.Injective (candPath d b e) :=
      fun j k hc => candPath_injective hc
    have hnd : ((List.range (support.length + 1)).map (candPath d b e)).Nodup :=
      (List.nodup_range _).map hinj
    have hsub : ∀ x ∈ (List.range (support.length + 1)).map (candPath d b e),
        x ∈ support := by
      intro x hx
      simp only [List.mem_map, List.mem_range] at hx
      obtain ⟨k, -, rfl⟩ := hx
      exact hsupport _ (hall k)
    have h1 : ((List.range (support.length + 1)).map (candPath d b e)).toFinset.card
        = support.length + 1 := by
      rw [List.toFinset_card_of_nodup hnd]
      simp
    have h2 : ((List.range (support.length + 1)).map (candPath d b e)).toFinset
        ⊆ support.toFinset := by
      intro x hx
      rw [List.mem_toFinset] at hx ⊢
      exact hsub x hx
    have h3 := Finset.card_le_card h2
    have h4 := support.toFinset_card_le
    omega
  have hk0 := Nat.find_spec hex
  have hmin := fun j (hj : j < Nat.find hex) => Nat.find_min hex hj
  have hlt : Nat.find hex < support.length + 1 := by
    rcases Nat.lt_or_ge (Nat.find hex) (support.length + 1) with h | h
    · exact h
    · exfalso
      have hinj : Function.Injective (candPath d b e) :=
        fun j k hc => candPath_injective hc
      have hall : ∀ k, k < Nat.find hex → pe (candPath d b e k) = true := by
        intro k hk
        cases hx : pe (candPath d b e k)
        · exact absurd hx (hmin k hk)
        · rfl
      have hnd : ((List.range (support.length + 1)).map (candPath d b e)).Nodup :=
        (List.nodup_range _).map hinj
      have hsub : ∀ x ∈ (List.range (support.length + 1)).map (candPath d b e),
          x ∈ support := by
        intro x hx
        simp only [List.mem_map, List.mem_range] at hx
        obtain ⟨k, hk, rfl⟩ := hx
        exact hsupport _ (hall k (by omega))
      have h1 : ((List.range (support.length + 1)).map (candPath d b e)).toFinset.card
          = support.length + 1 := by
        rw [List.toFinset_card_of_nodup hnd]
        simp
      have h2 : ((List.range (support.length + 1)).map (candPath d b e)).toFinset
          ⊆ support.toFinset := by
        intro x hx
        rw [List.mem_toFinset] at hx ⊢
        exact hsub x hx
      have h3 := Finset.card_le_card h2
      have h4 := support.toFinset_card_le
      omega
  refine ⟨candPath d b e (Nat.find hex), find_unique_filename_reaches hlt ?_ hk0⟩
  intro j hj
  cases hx : pe (candPath d b e j)
  · exact absurd hx (hmin j hj)
  · rfl

/-- Witness for C10: a single existing path, fuel two, the search
returns a result. -/
theorem c10_witness :
    ∃ p, find_unique_filename (fun p => p == str "d/t.j") (str "d") (str "t")
      (str ".j") 2 = some p :=
  c10_loop_terminates.2 (fun p => p == str "d/t.j") (str "d") (str "t")
    (str ".j") [str "d/t.j"]
    (fun p hp => by
      simp only [beq_iff_eq] at hp
      simp [hp])

/-! The simulated filesystem view (C5). -/

/-- C5: the simulated existence check reports a path as existing exactly
when real existence (as 1 or 0) plus its added-count minus its
removed-count is positive, over the integers; and a simulated rename
changes nothing but the two counters — the real filesystem is untouched,
the destination's added-count is bumped by one, the source's
removed-count is bumped by one, and every other entry of both counters is
unchanged. -/
theorem c5_sim_view_invariant (s : SimState) (p src dest : Str) :
    (simPathExists s p = true ↔
      (if s.realFS p then (1 : Int) else 0) + s.added p - s.removed p > 0) ∧
    (simRenameFile s src dest).realFS = s.realFS ∧
    (simRenameFile s src dest).added =
      Function.update s.added dest (s.added dest + 1) ∧
    (simRenameFile s src dest).removed =
      Function.update s.removed src (s.removed src + 1) := by
  refine ⟨?_, rfl, ?_, ?_⟩
  · simp [simPathExists]
  · funext q
    show (if q = dest then s.added q + 1 else s.added q) = _
    rw [Function.update_apply]
    by_cases h : q = dest
    · subst h
      simp
    · simp [h]
  · funext q
    show (if q = src then s.removed q + 1 else s.removed q) = _
    rw [Function.update_apply]
    by_cases h : q = src
    · subst h
      simp
    · simp [h]

/-! Lemmas about batch results and the runner. -/

theorem BatchResult.outs_consOut {σ : Type} (o : Outcome) (r : BatchResult σ) :
    (r.consOut o).outs = o :: r.outs := by cases r <;> rfl

theorem BatchResult.state_consOut {σ : Type} (o : Outcome) (r : BatchResult σ) :
    (r.consOut o).state = r.state := by cases r <;> rfl

theorem BatchResult.endKind_consOut {σ : Type} (o : Outcome) (r : BatchResult σ) :
    (r.consOut o).endKind = r.endKind := by cases r <;> rfl

/-- A simulated batch never mutates the real filesystem component of its
state. -/
theorem runFiles_sim_realFS (cfg : Config) (fuel : Nat) :
    ∀ (files : List FileInfo) (s : SimState),
      ((runFiles simStrategy cfg fuel files s).state).realFS = s.realFS := by
  intro files
  induction files with
  | nil => intro s; rfl
  | cons f rest ih =>
    intro s
    simp only [runFiles]
    by_cases hdir : f.isDir = true
    · rw [if_pos hdir, BatchResult.state_consOut]
      exact ih s
    · rw [if_neg hdir]
      by_cases hfs : simStrategy.realFS s (filePath f) = false
      · rw [if_pos hfs, BatchResult.state_consOut]
        exact ih s
      · rw [if_neg hfs]
        cases hgt : get_timestamp (cfg.envOf f) cfg.date_sources with
        | error e =>
          cases e with
          | timestampRead m =>
            rw [BatchResult.state_consOut]
            exact ih s
          | valueError m => rfl
        | ok v =>
          obtain ⟨tag, t⟩ := v
          dsimp only
          by_cases hm : matches_timestamp f.name (cfg.strftime t)
              (pyLower (pySuffix f.name)) = true
          · rw [if_pos hm, BatchResult.state_consOut]
            exact ih s
          · rw [if_neg hm]
            cases hfind : find_unique_filename (simStrategy.pathExists s) f.dir
                (cfg.strftime t) (pyLower (pySuffix f.name)) fuel with
            | none => rfl
            | some dest =>
              rw [BatchResult.state_consOut]
              exact ih (simStrategy.renameFile s (filePath f) dest)

/-- Under the counting invariant, the simulated existence check agrees
pointwise with the live filesystem. -/
theorem simPathExists_eq_of_inv {sim : SimState} {fsl : Str → Bool}
    (hinv : ∀ p, (if sim.realFS p then (1 : Int) else 0) + sim.added p
      - sim.removed p = (if fsl p then (1 : Int) else 0)) :
    simPathExists sim = fsl := by
  funext p
  have h := hinv p
  unfold simPathExists
  rw [h]
  cases hx : fsl p <;> simp [hx]

/-- The heart of C2: starting from corresponding states, a simulated run
and a live run over the same pairwise-distinct, initially-existing input
files take the same branch for every file and choose the same
destinations. -/
theorem runFiles_sim_eq_live (cfg : Config) (fuel : Nat) :
    ∀ (files : List FileInfo) (sim : SimState) (fsl : Str → Bool),
      (∀ p, (if sim.realFS p then (1 : Int) else 0) + sim.added p - sim.removed p
        = (if fsl p then (1 : Int) else 0)) →
      (∀ f ∈ files, sim.realFS (filePath f) = true ∧ fsl (filePath f) = true) →
      (files.map filePath).Nodup →
      (runFiles simStrategy cfg fuel files sim).outs =
          (runFiles liveStrategy cfg fuel files fsl).outs ∧
        (runFiles simStrategy cfg fuel files sim).endKind =
          (runFiles liveStrategy cfg fuel files fsl).endKind := by
  intro files
  induction files with
  | nil => intro sim fsl _ _ _; exact ⟨rfl, rfl⟩
  | cons f rest ih =>
    intro sim fsl hinv hex hnd
    have hpe : simPathExists sim = fsl := simPathExists_eq_of_inv hinv
    obtain ⟨hsimf, hlivef⟩ := hex f (List.mem_cons_self f rest)
    have hexr : ∀ g ∈ rest, sim.realFS (filePath g) = true ∧ fsl (filePath g) = true :=
      fun g hg => hex g (List.mem_cons_of_mem f hg)
    simp only [List.map_cons, List.nodup_cons] at hnd
    obtain ⟨hnotin, hndr⟩ := hnd
    have hne : ∀ g ∈ rest, filePath g ≠ filePath f := by
      intro g hg hcontra
      exact hnotin (hcontra ▸ List.mem_map_of_mem filePath hg)
    simp only [runFiles]
    by_cases hdir : f.isDir = true
    · rw [if_pos hdir, if_pos hdir, BatchResult.outs_consOut, BatchResult.outs_consOut,
        BatchResult.endKind_consOut, BatchResult.endKind_consOut]
      obtain ⟨h1, h2⟩ := ih sim fsl hinv hexr hndr
      exact ⟨by rw [h1], by rw [h2]⟩
    · rw [if_neg hdir, if_neg hdir,
        if_neg (show ¬ (simStrategy.realFS sim (filePath f) = false) by
          show ¬ (sim.realFS (filePath f) = false); simp [hsimf]),
        if_neg (show ¬ (liveStrategy.realFS fsl (filePath f) = false) by
          show ¬ (fsl (filePath f) = false); simp [hlivef])]
      cases hgt : get_timestamp (cfg.envOf f) cfg.date_sources with
      | error e =>
        cases e with
        | timestampRead m =>
          rw [BatchResult.outs_consOut, BatchResult.outs_consOut,
            BatchResult.endKind_consOut, BatchResult.endKind_consOut]
          obtain ⟨h1, h2⟩ := ih sim fsl hinv hexr hndr
          exact ⟨by rw [h1], by rw [h2]⟩
        | valueError m => exact ⟨rfl, rfl⟩
      | ok v =>
        obtain ⟨tag, t⟩ := v
        dsimp only
        by_cases hm : matches_timestamp f.name (cfg.strftime t)
            (pyLower (pySuffix f.name)) = true
        · rw [if_pos hm, if_pos hm, BatchResult.outs_consOut, BatchResult.outs_consOut,
            BatchResult.endKind_consOut, BatchResult.endKind_consOut]
          obtain ⟨h1, h2⟩ := ih sim fsl hinv hexr hndr
          exact ⟨by rw [h1], by rw [h2]⟩
        · rw [if_neg hm, if_neg hm]
          have hfind_eq : find_unique_filename (simStrategy.pathExists sim) f.dir
              (cfg.strftime t) (pyLower (pySuffix f.name)) fuel =
              find_unique_filename (liveStrategy.pathExists fsl) f.dir
              (cfg.strftime t) (pyLower (pySuffix f.name)) fuel := by
            show find_unique_filename (simPathExists sim) f.dir _ _ _ =
              find_unique_filename fsl f.dir _ _ _
            rw [hpe]
          rw [hfind_eq]
          cases hfind : find_unique_filename (liveStrategy.pathExists fsl) f.dir
              (cfg.strftime t) (pyLower (pySuffix f.name)) fuel with
          | none => exact ⟨rfl, rfl⟩
          | some dest =>
            rw [BatchResult.outs_consOut, BatchResult.outs_consOut,
              BatchResult.endKind_consOut, BatchResult.endKind_consOut]
            obtain ⟨k, -, hdf, -⟩ := find_unique_filename_some hfind
            have hdf : fsl dest = false := hdf
            have hsd : filePath f ≠ dest := by
              intro hc
              rw [hc, hdf] at hlivef
              exact Bool.noConfusion hlivef
            have hinv' : ∀ p,
                (if (simRenameFile sim (filePath f) dest).realFS p then (1 : Int) else 0)
                  + (simRenameFile sim (filePath f) dest).added p
                  - (simRenameFile sim (filePath f) dest).removed p
                = (if liveRename fsl (filePath f) dest p then (1 : Int) else 0) := by
              intro p
              show (if sim.realFS p then (1 : Int) else 0)
                  + ((if p = dest then sim.added p + 1 else sim.added p : Nat) : Int)
                  - ((if p = filePath f then sim.removed p + 1 else sim.removed p : Nat) : Int)
                = (if (if p = dest then true else if p = filePath f then false
                    else fsl p) then (1 : Int) else 0)
              have hp := hinv p
              set a : Int := (if sim.realFS p = true then (1 : Int) else 0) with ha
              by_cases hd : p = dest
              · have hf : fsl p = false := hd ▸ hdf
                have hs : ¬ p = filePath f := fun hc => hsd (hc ▸ hd)
                rw [hf] at hp
                simp only [Bool.false_eq_true, if_false] at hp
                rw [if_pos hd, if_neg hs, if_pos hd, if_pos rfl]
                push_cast
                omega
              · by_cases hs : p = filePath f
                · have hf : fsl p = true := hs ▸ hlivef
                  rw [hf] at hp
                  simp only [if_true] at hp
                  rw [if_neg hd, if_pos hs, if_neg hd, if_pos hs,
                    if_neg (Bool.false_ne_true)]
                  push_cast
                  omega
                · rw [if_neg hd, if_neg hs, if_neg hd, if_neg hs]
                  exact hp
            have hexr' : ∀ g ∈ rest,
                (simRenameFile sim (filePath f) dest).realFS (filePath g) = true ∧
                liveRename fsl (filePath f) dest (filePath g) = true := by
              intro g hg
              obtain ⟨hg1, hg2⟩ := hexr g hg
              refine ⟨hg1, ?_⟩
              have hgd : filePath g ≠ dest := by
                intro hc
                rw [hc, hdf] at hg2
                exact Bool.noConfusion hg2
              unfold liveRename
              rw [if_neg hgd, if_neg (hne g hg)]
              exact hg2
            obtain ⟨h1, h2⟩ := ih (simStrategy.renameFile sim (filePath f) dest)
              (liveStrategy.renameFile fsl (filePath f) dest) hinv' hexr' hndr
            exact ⟨by rw [h1], by rw [h2]⟩

/-- C2 counterexample: for an arbitrary input list the claim is false.
With the same path listed twice, the live run renames the file and then
reports the second occurrence as missing, while the simulated run — whose
`is_file` check still consults the untouched real filesystem — processes
it again and renames it to a second destination: the decisions differ. -/
theorem c2_counterexample :
    ¬ ((runFiles simStrategy
        ⟨[.known .file_modified], fun _ => str "t",
          fun _ => ⟨.error (str "x"), .error (str "y"), 0, 0⟩⟩ 5
        [⟨str "d", str "x", false⟩, ⟨str "d", str "x", false⟩]
        ⟨fun p => p == str "d/x", fun _ => 0, fun _ => 0⟩).outs =
      (runFiles liveStrategy
        ⟨[.known .file_modified], fun _ => str "t",
          fun _ => ⟨.error (str "x"), .error (str "y"), 0, 0⟩⟩ 5
        [⟨str "d", str "x", false⟩, ⟨str "d", str "x", false⟩]
        (fun p => p == str "d/x")).outs) := by
  decide

/-- C2 (amended): for input lists whose paths are pairwise distinct and
all initially existing, a simulated run computes exactly the same
per-file decisions and destination names as a live run from the same
initial filesystem state, ends the same way, and leaves the real
filesystem untouched; and within one simulated batch later files observe
earlier simulated renames, so two files whose canonical name coincides
resolve to `name.ext` and `name-1.ext` in input order. -/
theorem c2_sim_refines_live_amended :
    (∀ (cfg : Config) (fuel : Nat) (files : List FileInfo) (fs₀ : Str → Bool),
      (files.map filePath).Nodup →
      (∀ f ∈ files, fs₀ (filePath f) = true) →
      (runFiles simStrategy cfg fuel files ⟨fs₀, fun _ => 0, fun _ => 0⟩).outs =
          (runFiles liveStrategy cfg fuel files fs₀).outs ∧
        (runFiles simStrategy cfg fuel files ⟨fs₀, fun _ => 0, fun _ => 0⟩).endKind =
          (runFiles liveStrategy cfg fuel files fs₀).endKind ∧
        ((runFiles simStrategy cfg fuel files ⟨fs₀, fun _ => 0, fun _ => 0⟩).state).realFS
          = fs₀) ∧
    ((runFiles simStrategy
        ⟨[.known .exif], fun _ => str "t",
          fun _ => ⟨.ok 5, .error (str "no"), 0, 0⟩⟩ 2
        [⟨str "d", str "a.jpg", false⟩, ⟨str "d", str "b.jpg", false⟩]
        ⟨fun p => p == str "d/a.jpg" || p == str "d/b.jpg",
          fun _ => 0, fun _ => 0⟩).outs =
      [.renamed (.known .exif) (str "d/t.jpg"),
        .renamed (.known .exif) (str "d/t-1.jpg")]) := by
  constructor
  · intro cfg fuel files fs₀ hnd hex
    obtain ⟨h1, h2⟩ := runFiles_sim_eq_live cfg fuel files
      ⟨fs₀, fun _ => 0, fun _ => 0⟩ fs₀
      (by intro p; simp)
      (fun f hf => ⟨hex f hf, hex f hf⟩) hnd
    exact ⟨h1, h2, runFiles_sim_realFS cfg fuel files _⟩
  · decide

/-- Witness for C2: a concrete one-file batch where the amended
refinement applies. -/
theorem c2_witness :
    (runFiles simStrategy
        ⟨[.known .file_modified], fun _ => str "t",
          fun _ => ⟨.error (str "x"), .error (str "y"), 0, 0⟩⟩ 3
        [⟨str "d", str "x", false⟩]
        ⟨fun p => p == str "d/x", fun _ => 0, fun _ => 0⟩).outs =
      (runFiles liveStrategy
        ⟨[.known .file_modified], fun _ => str "t",
          fun _ => ⟨.error (str "x"), .error (str "y"), 0, 0⟩⟩ 3
        [⟨str "d", str "x", false⟩]
        (fun p => p == str "d/x")).outs :=
  (c2_sim_refines_live_amended.1
    ⟨[.known .file_modified], fun _ => str "t",
      fun _ => ⟨.error (str "x"), .error (str "y"), 0, 0⟩⟩ 3
    [⟨str "d", str "x", false⟩] (fun p => p == str "d/x")
    (by decide) (by decide)).1

/-! Lemmas for idempotence (C6). -/

/-- Any candidate name produced by the unique-name search matches the
name-matcher check against the same base and extension — provided the
extension is non-empty or no suffix was needed.  (For an empty extension
and a positive suffix index the matcher rejects the name; see C9.) -/
theorem matches_candName (b e : Str) (k : Nat) (h : e ≠ [] ∨ k = 0) :
    matches_timestamp (candName b e k) b e = true := by
  cases k with
  | zero =>
    unfold matches_timestamp candName
    rw [if_pos rfl]
  | succ k =>
    rcases h with h | h
    · obtain ⟨c, r, hc, hd⟩ := decimalRepr_head (k + 1)
      refine (matches_timestamp_iff h).mpr (Or.inr ⟨c, r, hd, ?_⟩)
      show b ++ '-' :: (decimalRepr (k + 1) ++ e) = b ++ '-' :: c :: (r ++ e)
      rw [hc]
      simp
    · exact absurd h (Nat.succ_ne_zero k)

/-- Inversion of `consOut` on a normally-finished result. -/
theorem BatchResult.consOut_finished {σ : Type} {o : Outcome} {r : BatchResult σ}
    {outs : List Outcome} {s' : σ} (h : r.consOut o = .finished outs s') :
    ∃ outs₁, r = .finished outs₁ s' ∧ outs = o :: outs₁ := by
  cases r with
  | finished o1 s1 =>
    simp only [BatchResult.consOut, BatchResult.finished.injEq] at h
    exact ⟨o1, by rw [h.2], h.1.symm⟩
  | aborted e1 o1 s1 => exact absurd h (by simp [BatchResult.consOut])
  | outOfFuel o1 s1 => exact absurd h (by simp [BatchResult.consOut])

/-- In a normally-finished batch, outcomes align one-to-one with the
input files, and every rename decision's destination is a candidate
`candPath` built from that file's own directory, its canonical base name
(the formatted resolved timestamp) and its lower-cased extension. -/
theorem runFiles_finished_renames {σ : Type} (S : Strategy σ) (cfg : Config)
    (fuel : Nat) :
    ∀ (files : List FileInfo) (s : σ) (outs : List Outcome) (s' : σ),
      runFiles S cfg fuel files s = .finished outs s' →
      List.Forall₂ (fun f o => ∀ tag dest, o = Outcome.renamed tag dest →
        ∃ t k, get_timestamp (cfg.envOf f) cfg.date_sources = .ok (tag, t) ∧
          dest = candPath f.dir (cfg.strftime t) (pyLower (pySuffix f.name)) k)
        files outs := by
  intro files
  induction files with
  | nil =>
    intro s outs s' h
    simp only [runFiles, BatchResult.finished.injEq] at h
    rw [← h.1]
    exact List.Forall₂.nil
  | cons f rest ih =>
    intro s outs s' h
    simp only [runFiles] at h
    by_cases hdir : f.isDir = true
    · rw [if_pos hdir] at h
      obtain ⟨outs₁, hr, rfl⟩ := BatchResult.consOut_finished h
      exact List.Forall₂.cons (fun tag dest hc => Outcome.noConfusion hc)
        (ih s outs₁ s' hr)
    · rw [if_neg hdir] at h
      by_cases hfs : S.realFS s (filePath f) = false
      · rw [if_pos hfs] at h
        obtain ⟨outs₁, hr, rfl⟩ := BatchResult.consOut_finished h
        exact List.Forall₂.cons (fun tag dest hc => Outcome.noConfusion hc)
          (ih s outs₁ s' hr)
      · rw [if_neg hfs] at h
        cases hgt : get_timestamp (cfg.envOf f) cfg.date_sources with
        | error e =>
          rw [hgt] at h
          cases e with
          | timestampRead m =>
            obtain ⟨outs₁, hr, rfl⟩ := BatchResult.consOut_finished h
            exact List.Forall₂.cons (fun tag dest hc => Outcome.noConfusion hc)
              (ih s outs₁ s' hr)
          | valueError m => exact absurd h (by simp)
        | ok v =>
          obtain ⟨tag, t⟩ := v
          rw [hgt] at h
          dsimp only at h
          by_cases hm : matches_timestamp f.name (cfg.strftime t)
              (pyLower (pySuffix f.name)) = true
          · rw [if_pos hm] at h
            obtain ⟨outs₁, hr, rfl⟩ := BatchResult.consOut_finished h
            exact List.Forall₂.cons (fun tag dest hc => Outcome.noConfusion hc)
              (ih s outs₁ s' hr)
          · rw [if_neg hm] at h
            cases hfind : find_unique_filename (S.pathExists s) f.dir
                (cfg.strftime t) (pyLower (pySuffix f.name)) fuel with
            | none =>
              rw [hfind] at h
              exact absurd h (by simp)
            | some dest =>
              rw [hfind] at h
              obtain ⟨outs₁, hr, rfl⟩ := BatchResult.consOut_finished h
              refine List.Forall₂.cons ?_ (ih _ outs₁ s' hr)
              intro tag' dest' hc
              obtain ⟨k, hdp, -, -⟩ := find_unique_filename_some hfind
              injection hc with hc1 hc2
              exact ⟨t, k, by rw [← hc1]; exact hgt, by rw [← hc2]; exact hdp⟩

/-- A live batch over files that already carry their canonical names (a
candidate name with non-empty extension, or the plain canonical name)
skips every file as already matching and leaves the filesystem state
unchanged. -/
theorem runFiles_all_matching (cfg : Config) (fuel : Nat) :
    ∀ (files : List FileInfo) (fs : Str → Bool),
      (∀ g ∈ files, g.isDir = false ∧ fs (filePath g) = true ∧
        ∃ tag t k, get_timestamp (cfg.envOf g) cfg.date_sources = .ok (tag, t) ∧
          g.name = candName (cfg.strftime t) (pyLower (pySuffix g.name)) k ∧
          (pyLower (pySuffix g.name) ≠ [] ∨ k = 0)) →
      runFiles liveStrategy cfg fuel files fs =
        .finished (files.map fun _ => Outcome.alreadyMatches) fs := by
  intro files
  induction files with
  | nil => intro fs _; rfl
  | cons g rest ih =>
    intro fs hall
    obtain ⟨hdir, hfs, tag, t, k, hgt, hname, hek⟩ :=
      hall g (List.mem_cons_self g rest)
    simp only [runFiles]
    rw [if_neg (by simp [hdir]), if_neg (show ¬ (liveStrategy.realFS fs (filePath g) = false) by
      show ¬ (fs (filePath g) = false); simp [hfs]), hgt]
    dsimp only
    rw [if_pos (show matches_timestamp g.name (cfg.strftime t)
      (pyLower (pySuffix g.name)) = true by
        nth_rewrite 1 [hname]
        exact matches_candName _ _ k hek)]
    rw [ih fs (fun g' hg' => hall g' (List.mem_cons_of_mem g hg'))]
    rfl

/-- C6 counterexample: idempotence fails for a file without an extension.
The first live run renames `d/x` (canonical base `t`, empty extension,
`d/t` already taken) to `d/t-1`; running the batch again over the
resulting file does not skip it — the empty-extension slice defeats the
matcher — and renames it again, to `d/t-2`. -/
theorem c6_counterexample :
    ((runFiles liveStrategy
        ⟨[.known .file_modified], fun _ => str "t",
          fun _ => ⟨.error (str "x"), .error (str "y"), 0, 0⟩⟩ 3
        [⟨str "d", str "x", false⟩]
        (fun p => p == str "d/x" || p == str "d/t")).outs =
      [Outcome.renamed (.known .file_modified) (str "d/t-1")]) ∧
    ((runFiles liveStrategy
        ⟨[.known .file_modified], fun _ => str "t",
          fun _ => ⟨.error (str "x"), .error (str "y"), 0, 0⟩⟩ 3
        [⟨str "d", str "t-1", false⟩]
        ((runFiles liveStrategy
          ⟨[.known .file_modified], fun _ => str "t",
            fun _ => ⟨.error (str "x"), .error (str "y"), 0, 0⟩⟩ 3
          [⟨str "d", str "x", false⟩]
          (fun p => p == str "d/x" || p == str "d/t")).state)).outs =
      [Outcome.renamed (.known .file_modified) (str "d/t-2")]) := by
  decide

/-- C6 (amended): in a normally-finished run every rename decision's
destination is a candidate name built from the file's canonical base and
lower-cased extension; every such candidate name with a non-empty
extension (or with no disambiguation suffix) passes the name-matcher
check against that base and extension; hence a second live run over
files standing at such names — resolving the same timestamps under the
same configuration — skips every file as already matching and performs
no rename and no filesystem change.  (Files whose extension is empty and
whose name carries a disambiguation suffix are renamed again; see the
counterexample and C9.) -/
theorem c6_second_run_skips_amended :
    (∀ (σ : Type) (S : Strategy σ) (cfg : Config) (fuel : Nat)
      (files : List FileInfo) (s : σ) (outs : List Outcome) (s' : σ),
      runFiles S cfg fuel files s = .finished outs s' →
      List.Forall₂ (fun f o => ∀ tag dest, o = Outcome.renamed tag dest →
        ∃ t k, get_timestamp (cfg.envOf f) cfg.date_sources = .ok (tag, t) ∧
          dest = candPath f.dir (cfg.strftime t) (pyLower (pySuffix f.name)) k)
        files outs) ∧
    (∀ (b e : Str) (k : Nat), e ≠ [] ∨ k = 0 →
      matches_timestamp (candName b e k) b e = true) ∧
    (∀ (cfg : Config) (fuel : Nat) (files : List FileInfo) (fs : Str → Bool),
      (∀ g ∈ files, g.isDir = false ∧ fs (filePath g) = true ∧
        ∃ tag t k, get_timestamp (cfg.envOf g) cfg.date_sources = .ok (tag, t) ∧
          g.name = candName (cfg.strftime t) (pyLower (pySuffix g.name)) k ∧
          (pyLower (pySuffix g.name) ≠ [] ∨ k = 0)) →
      runFiles liveStrategy cfg fuel files fs =
        .finished (files.map fun _ => Outcome.alreadyMatches) fs) :=
  ⟨fun _ S cfg fuel files s outs s0 h =>
      runFiles_finished_renames S cfg fuel files s outs s0 h,
    matches_candName,
    runFiles_all_matching⟩

/-- Witness for C6: a file standing at the collision-suffixed name
`t-1.j` (canonical base `t`, extension `.j`) is skipped as already
matching by a live run, which also leaves the state `fs` unchanged. -/
theorem c6_witness :
    runFiles liveStrategy
        ⟨[.known .file_modified], fun _ => str "t",
          fun _ => ⟨.error (str "x"), .error (str "y"), 0, 0⟩⟩ 3
        [⟨str "d", str "t-1.j", false⟩]
        (fun p => p == str "d/t-1.j") =
      .finished [Outcome.alreadyMatches] (fun p => p == str "d/t-1.j") :=
  c6_second_run_skips_amended.2.2
    ⟨[.known .file_modified], fun _ => str "t",
      fun _ => ⟨.error (str "x"), .error (str "y"), 0, 0⟩⟩ 3
    [⟨str "d", str "t-1.j", false⟩] (fun p => p == str "d/t-1.j")
    (fun g hg => by
      simp only [List.mem_cons, List.not_mem_nil, or_false] at hg
      subst hg
      exact ⟨rfl, by decide, .known .file_modified, 0, 1, rfl, by decide,
        Or.inl (by decide)⟩)
